import Mathlib

/-!
Shallow embedding of the `marbles` command-line program (`src/main.rs`).

The program maintains a named list of items as a `BTreeSet<String>` persisted
one item per line in a plain text file, and offers the subcommands
`add`, `remove`, `list`, `roll` and `edit`.

Modelling decisions, in source order:

* Rust `String` is modelled by Lean `String`; `BTreeSet<String>` is modelled
  by a canonically sorted, duplicate-free `List String`, ordered by the
  byte-wise lexicographic order that `Ord for String` uses in Rust (on UTF-8
  text, byte-wise order coincides with code-point lexicographic order, which
  `strLt` below implements on `String.data`).
* The backing file's byte content is modelled as a `List Char`.
* `BufReader::lines().flatten()` (used by `ItemList::new`) is modelled by
  `rustLines`: split on the newline character, drop the trailing empty
  segment produced by a final newline, and strip a carriage return that
  immediately precedes a newline (exactly what `std::io::BufRead::lines`
  does); `flatten` only discards UTF-8 decoding errors, which have no
  counterpart in the `List Char` model.
* The `roll` subcommand's animation consumes randomness from `thread_rng()`:
  one `gen_range(300..500)` call and a stream of `gen_bool` calls, plus one
  initial `shuffle`.  `RollRng` packages those outcomes; the `gen_bool`
  stream is consumed left to right exactly in source order, threading an
  index into the stream.  Panics (index out of bounds, arithmetic underflow)
  are modelled as `none`.
* Terminal output, cursor movement and sleeps are pure presentation and are
  not modelled, except that `editCommand` records which messages are printed,
  because one claim is about a message being printed.
-/

set_option linter.unusedVariables false
set_option maxRecDepth 100000

/-- Byte-wise lexicographic strict order on character lists, mirroring the
`Ord` instance Rust's `BTreeSet<String>` sorts by (comparison of UTF-8 byte
sequences; on `List Char` this is code-point lexicographic order). -/
def strLtB : List Char → List Char → Bool
  | _, [] => false
  | [], _ :: _ => true
  | a :: as, b :: bs =>
    if a.toNat < b.toNat then true
    else if b.toNat < a.toNat then false
    else strLtB as bs

/-- Strict order on `String` induced by `strLtB` on the character data. -/
def strLt (a b : String) : Prop := strLtB a.data b.data = true

instance : DecidableRel strLt := fun a b => inferInstanceAs (Decidable (_ = true))

/-- Insertion into the canonically sorted duplicate-free list that models a
`BTreeSet<String>`: insert before the first larger element, and do nothing
when an equal element is already present (`BTreeSet::insert` keeps the set
duplicate-free). -/
def btInsert (x : String) : List String → List String
  | [] => [x]
  | y :: ys =>
    if strLtB x.data y.data then x :: y :: ys
    else if strLtB y.data x.data then y :: btInsert x ys
    else y :: ys

/-- Collecting an iterator of strings into a `BTreeSet<String>`
(`.collect()` in `ItemList::new`): insert the elements one by one. -/
def btFromList (l : List String) : List String :=
  l.foldl (fun acc s => btInsert s acc) []

/-- The `ItemList` struct of `src/main.rs`.  The `path` field is omitted: it
only names the backing file, which the model passes around explicitly as
file content.  `items` models the `BTreeSet<String>` field as its sorted
iteration sequence. -/
structure ItemList where
  items : List String

/-- `ItemList::add`: `self.items.insert(item)` with the returned flag
discarded. -/
def ItemList.add (l : ItemList) (item : String) : ItemList :=
  ⟨btInsert item l.items⟩

/-- `ItemList::remove`: `self.items.remove(item)` returns whether the item
was present and removes it. -/
def ItemList.remove (l : ItemList) (item : String) : Bool × ItemList :=
  (decide (item ∈ l.items), ⟨l.items.erase item⟩)

/-- `ItemList::save`: the file is opened with `truncate(true).create(true)`,
so the previous content `old` is discarded, and `writeln!` appends each item
of the set, in iteration (sorted) order, followed by a newline.  The result
is the byte content of the file after the final flush. -/
def ItemList.save (l : ItemList) (old : List Char) : List Char :=
  l.items.foldl (fun acc s => acc ++ s.data ++ ['\n']) []

/-- Segments of a character list obtained by splitting at every newline
character.  A trailing newline yields a trailing empty segment, and the
empty input yields one empty segment. -/
def splitNL : List Char → List (List Char)
  | [] => [[]]
  | c :: cs =>
    if c = '\n' then [] :: splitNL cs
    else
      match splitNL cs with
      | [] => [[c]]
      | l :: ls => (c :: l) :: ls

/-- Strip one trailing carriage return, as `BufRead::lines` does on a
newline-terminated line. -/
def stripCR (l : List Char) : List Char :=
  if l.getLast? = some '\x0d' then l.dropLast else l

/-- The lines produced by `BufReader::new(file).lines()`: every
newline-terminated segment with its optional trailing carriage return
stripped, and the final unterminated segment kept verbatim unless it is
empty (end of file directly after a newline, or an empty file). -/
def rustLines (cs : List Char) : List (List Char) :=
  let segs := splitNL cs
  (segs.dropLast.map stripCR) ++
    match segs.getLast? with
    | some [] => []
    | some l => [l]
    | none => []

/-- Reading file content into the item set, as in `ItemList::new`:
`BufReader::new(file).lines().flatten().collect()`. -/
def loadContent (cs : List Char) : List String :=
  btFromList ((rustLines cs).map String.mk)

/-- `ItemList::new` after the `dirs::data_local_dir()` lookup (whose failure
is a panic via `expect`, not an error return): `fs::create_dir_all` failure
(`dirCreated = false`) propagates as an error via `?`, modelled as `none`;
otherwise `File::open` either yields content (`openResult = some cs`) that
is read line by line, or fails with any error (`openResult = none`, covering
both a missing file and other open errors such as permission denied), in
which case the set starts empty. -/
def ItemList.new (dirCreated : Bool) (openResult : Option (List Char)) :
    Option ItemList :=
  if dirCreated then
    some ⟨match openResult with
          | some cs => loadContent cs
          | none => []⟩
  else none

/-- The `Commands::List` branch: each item of the set, in iteration (sorted)
order, becomes a table row `[(i + 1).to_string(), item]` for the 0-based
enumeration index `i`. -/
def listCommand (l : ItemList) : List (String × String) :=
  l.items.enum.map (fun p => (toString (p.1 + 1), p.2))

/-- Outcomes drawn from `thread_rng()` by the `Commands::Roll` branch:
`count` is the `rng.gen_range(300..500)` result, `bools` the stream of
successive `rng.gen_bool` results, and `shuffle` the permutation applied by
`choices.shuffle(&mut rng)`. -/
structure RollRng where
  count : Nat
  bools : Nat → Bool
  shuffle : List String → List String

/-- `Vec::swap(i, i + 1)` on a list, for an adjacent transposition at
position `i` (out-of-range positions cannot occur at its call sites, whose
loop bounds keep `i + 1` below the length; on short lists it is the
identity). -/
def swapAdj : List String → Nat → List String
  | a :: b :: rest, 0 => b :: a :: rest
  | a :: rest, Nat.succ n => a :: swapAdj rest n
  | l, _ => l

/-- One pass of randomized adjacent swaps.  `idxs` enumerates the adjacent
positions in loop order; for each, one `gen_bool(0.2)` outcome is consumed
(index `k` into the stream) and on `true` the two neighbours are swapped.
Both swap loops of the source reduce to this: `for i in 0..(len - 1)`
swapping `(i, i + 1)`, and `for i in 1..len` swapping `(i, i - 1)`, both
visit adjacent positions `0, 1, ..., len - 2` in increasing order. -/
def runSwaps (b : Nat → Bool) (idxs : List Nat) (st : List String × Nat) :
    List String × Nat :=
  idxs.foldl
    (fun st i => if b st.2 then (swapAdj st.1 i, st.2 + 1) else (st.1, st.2 + 1))
    st

/-- The kill loop `for i in 0..choices.len()`: the range bound is evaluated
once at loop entry (`idxs`), each iteration consumes one `gen_bool(0.001)`
outcome, and on `true` the guard `i < choices.len()` (against the current,
possibly shrunk length — the source comments that it is not redundant)
allows `choices.remove(i)`. -/
def killPass (b : Nat → Bool) (idxs : List Nat) (st : List String × Nat) :
    List String × Nat :=
  idxs.foldl
    (fun st i =>
      if b st.2 = true ∧ i < st.1.length then (st.1.eraseIdx i, st.2 + 1)
      else (st.1, st.2 + 1))
    st

/-- One iteration of the `for _ in 0..count` animation loop, on the state
(current preview vector, next index into the `gen_bool` stream).  When the
vector is empty, `choices.len() - 1` underflows `usize` and the program
panics (`none`).  Otherwise the two swap passes run over the adjacent
positions, table rendering is pure presentation, and the kill pass runs over
the range `0..choices.len()` captured at its entry (the swap passes preserve
the length, so all three ranges come from the same length `n`). -/
def rollTick (b : Nat → Bool) (st : List String × Nat) :
    Option (List String × Nat) :=
  if st.1.length = 0 then none
  else
    let n := st.1.length
    let st1 := runSwaps b (List.range (n - 1)) st
    let st2 := runSwaps b (List.range (n - 1)) st1
    some (killPass b (List.range n) st2)

/-- The whole animation loop: `count` iterations of `rollTick`, propagating
a panic. -/
def rollRun (b : Nat → Bool) : Nat → List String × Nat →
    Option (List String × Nat)
  | 0, st => some st
  | Nat.succ t, st => (rollTick b st).bind (rollRun b t)

/-- The `Commands::Roll` branch followed by the `list.save()` call of `main`:
the preview vector starts as the shuffled iteration sequence of the set, the
animation loop runs `count` times, and then `choices[0]` is printed as the
rolled item (a panic, `none`, when the vector has been emptied).  The second
component is the item set at the moment `list.save()` runs; the branch never
mutates `list.items`, so it is `l.items` itself. -/
def rollCommand (l : ItemList) (rng : RollRng) : Option (String × List String) :=
  match rollRun rng.bools rng.count (rng.shuffle l.items, 0) with
  | none => none
  | some (choices, _) =>
    match choices with
    | [] => none
    | c :: _ => some (c, l.items)

/-- Result of `Command::new(...).spawn()` in the `Commands::Edit` branch. -/
inductive SpawnResult
  | ok
  | failed

/-- Observable outcome of the `Commands::Edit` branch: the messages printed
to the terminal, whether `main` returns `Ok(())` (process exit code 0), and
whether `list.save()` runs before the return. -/
structure EditOutcome where
  printed : List String
  exitOk : Bool
  saved : Bool

/-- The message built by the `format!` call in the spawn-failure branch
(colour codes dropped). -/
def editErrorMessage : String := "error: Could not open EDITOR"

/-- The `Commands::Edit` branch.  On a successful spawn it waits for the
child and returns `Ok(())` early, before the `list.save()` call.  On a spawn
failure the `let ... else` branch evaluates `format!(...)` — which only
builds `editErrorMessage` and discards it, printing nothing (the source
comments `// this is wrong`) — and returns `Ok(())` early as well. -/
def editCommand (spawn : SpawnResult) : EditOutcome :=
  match spawn with
  | .ok => { printed := [], exitOk := true, saved := false }
  | .failed => { printed := [], exitOk := true, saved := false }

theorem strLtB_irrefl : ∀ as, strLtB as as = false := by
  intro as
  induction as with
  | nil => rfl
  | cons a as ih => simp [strLtB, ih]

theorem strLtB_cons_iff {a b : Char} {as bs : List Char} :
    strLtB (a :: as) (b :: bs) = true ↔
      a.toNat < b.toNat ∨ (a.toNat = b.toNat ∧ strLtB as bs = true) := by
  simp only [strLtB]
  split_ifs with h1 h2
  · simp [h1]
  · simp
    omega
  · have h3 : a.toNat = b.toNat := by omega
    simp [h3]

theorem strLtB_asymm : ∀ as bs, strLtB as bs = true → strLtB bs as = false := by
  intro as
  induction as with
  | nil =>
    intro bs h
    cases bs with
    | nil => rfl
    | cons b bs => rfl
  | cons a as ih =>
    intro bs h
    cases bs with
    | nil => simp [strLtB] at h
    | cons b bs =>
      rcases strLtB_cons_iff.mp h with h1 | ⟨h1, h1'⟩
      · rcases h2 : strLtB (b :: bs) (a :: as) with _ | _
        · rfl
        · rcases strLtB_cons_iff.mp h2 with h3 | ⟨h3, _⟩ <;> omega
      · rcases h2 : strLtB (b :: bs) (a :: as) with _ | _
        · rfl
        · rcases strLtB_cons_iff.mp h2 with h3 | ⟨h3, h3'⟩
          · omega
          · rw [ih bs h1'] at h3'
            exact h3'.symm ▸ rfl

theorem strLtB_eq_of_not_lt : ∀ as bs, strLtB as bs = false → strLtB bs as = false →
    as = bs := by
  intro as
  induction as with
  | nil =>
    intro bs h _
    cases bs with
    | nil => rfl
    | cons b bs => simp [strLtB] at h
  | cons a as ih =>
    intro bs hab hba
    cases bs with
    | nil => simp [strLtB] at hba
    | cons b bs =>
      have h1 : ¬ (a.toNat < b.toNat ∨ (a.toNat = b.toNat ∧ strLtB as bs = true)) := by
        intro hc
        rw [strLtB_cons_iff.mpr hc] at hab
        cases hab
      have h2 : ¬ (b.toNat < a.toNat ∨ (b.toNat = a.toNat ∧ strLtB bs as = true)) := by
        intro hc
        rw [strLtB_cons_iff.mpr hc] at hba
        cases hba
      push_neg at h1 h2
      have hab' : strLtB as bs = false := by
        rcases h : strLtB as bs with _ | _
        · rfl
        · exact absurd h (h1.2 (by omega))
      have hba' : strLtB bs as = false := by
        rcases h : strLtB bs as with _ | _
        · rfl
        · exact absurd h (h2.2 (by omega))
      have hnat : a.toNat = b.toNat := by
        have ha := h1.1
        have hb := h2.1
        omega
      have hc : a = b := Char.eq_of_val_eq (UInt32.ext hnat)
      rw [hc, ih bs hab' hba']

theorem strLtB_trans : ∀ as bs cs, strLtB as bs = true → strLtB bs cs = true →
    strLtB as cs = true := by
  intro as
  induction as with
  | nil =>
    intro bs cs hab hbc
    cases bs with
    | nil => exact hbc
    | cons b bs =>
      cases cs with
      | nil => simp [strLtB] at hbc
      | cons c cs => rfl
  | cons a as ih =>
    intro bs cs hab hbc
    cases bs with
    | nil => simp [strLtB] at hab
    | cons b bs =>
      cases cs with
      | nil => simp [strLtB] at hbc
      | cons c cs =>
        rcases strLtB_cons_iff.mp hab with h1 | ⟨h1, h1'⟩ <;>
          rcases strLtB_cons_iff.mp hbc with h2 | ⟨h2, h2'⟩
        · exact strLtB_cons_iff.mpr (Or.inl (by omega))
        · exact strLtB_cons_iff.mpr (Or.inl (by omega))
        · exact strLtB_cons_iff.mpr (Or.inl (by omega))
        · exact strLtB_cons_iff.mpr (Or.inr ⟨by omega, ih bs cs h1' h2'⟩)

theorem strLt_trans {a b c : String} (h1 : strLt a b) (h2 : strLt b c) : strLt a c :=
  strLtB_trans a.data b.data c.data h1 h2

theorem strLt_ne {a b : String} (h : strLt a b) : a ≠ b := by
  intro he
  rw [he] at h
  have h' : strLtB b.data b.data = true := h
  rw [strLtB_irrefl] at h'
  cases h'

theorem btInsert_mem {y x : String} : ∀ l : List String,
    y ∈ btInsert x l ↔ y = x ∨ y ∈ l := by
  intro l
  induction l with
  | nil => simp [btInsert]
  | cons z zs ih =>
    cases h1 : strLtB x.data z.data with
    | true => simp [btInsert, h1]
    | false =>
      cases h2 : strLtB z.data x.data with
      | true =>
        simp only [btInsert, h1, h2, Bool.false_eq_true, if_false, if_true,
          List.mem_cons, ih]
        tauto
      | false =>
        have hxz : x = z := congrArg String.mk (strLtB_eq_of_not_lt x.data z.data h1 h2)
        subst hxz
        simp only [btInsert, h1, Bool.false_eq_true, if_false, List.mem_cons]
        tauto

theorem btInsert_sorted {x : String} : ∀ {l : List String},
    List.Sorted strLt l → List.Sorted strLt (btInsert x l) := by
  intro l
  induction l with
  | nil =>
    intro _
    simp [btInsert, List.Sorted]
  | cons z zs ih =>
    intro hs
    rw [List.sorted_cons] at hs
    cases h1 : strLtB x.data z.data with
    | true =>
      simp only [btInsert, h1, if_true]
      rw [List.sorted_cons]
      refine ⟨?_, List.sorted_cons.mpr hs⟩
      intro b hb
      rcases List.mem_cons.mp hb with hb | hb
      · rw [hb]
        exact h1
      · exact strLt_trans h1 (hs.1 b hb)
    | false =>
      cases h2 : strLtB z.data x.data with
      | true =>
        simp only [btInsert, h1, h2, Bool.false_eq_true, if_false, if_true]
        rw [List.sorted_cons]
        refine ⟨?_, ih hs.2⟩
        intro b hb
        rcases (btInsert_mem _).mp hb with hb | hb
        · rw [hb]
          exact h2
        · exact hs.1 b hb
      | false =>
        simp only [btInsert, h1, h2, Bool.false_eq_true, if_false]
        exact List.sorted_cons.mpr hs

theorem sorted_nodup : ∀ {l : List String}, List.Sorted strLt l → l.Nodup := by
  intro l hs
  exact List.Pairwise.imp (fun h => strLt_ne h) hs

theorem btFromList_mem {y : String} : ∀ (l acc : List String),
    y ∈ l.foldl (fun acc s => btInsert s acc) acc ↔ y ∈ acc ∨ y ∈ l := by
  intro l
  induction l with
  | nil => simp
  | cons z zs ih =>
    intro acc
    simp only [List.foldl_cons, ih, btInsert_mem, List.mem_cons]
    tauto

theorem btFromList_sorted : ∀ (l acc : List String),
    List.Sorted strLt acc →
    List.Sorted strLt (l.foldl (fun acc s => btInsert s acc) acc) := by
  intro l
  induction l with
  | nil => exact fun acc h => h
  | cons z zs ih =>
    intro acc hacc
    exact ih _ (btInsert_sorted hacc)

theorem foldl_writeln : ∀ (L : List String) (acc : List Char),
    L.foldl (fun a s => a ++ s.data ++ ['\n']) acc =
      acc ++ (L.map (fun s => s.data ++ ['\n'])).flatten := by
  intro L
  induction L with
  | nil => simp
  | cons s L ih =>
    intro acc
    rw [List.foldl_cons, ih]
    simp [List.append_assoc]

theorem save_eq_flatten (l : ItemList) (old : List Char) :
    l.save old = (l.items.map (fun s => s.data ++ ['\n'])).flatten := by
  unfold ItemList.save
  rw [foldl_writeln, List.nil_append]

theorem splitNL_newline_free : ∀ (seg rest : List Char), '\n' ∉ seg →
    splitNL (seg ++ '\n' :: rest) = seg :: splitNL rest := by
  intro seg
  induction seg with
  | nil =>
    intro rest _
    simp [splitNL]
  | cons c seg ih =>
    intro rest h
    have hc : ¬ c = '\n' := fun hc => h (hc ▸ List.mem_cons_self c seg)
    have hseg : '\n' ∉ seg := fun hm => h (List.mem_cons_of_mem c hm)
    simp only [List.cons_append, splitNL, hc, if_false, List.append_eq]
    rw [ih rest hseg]

theorem splitNL_flatten : ∀ L : List (List Char), (∀ seg ∈ L, '\n' ∉ seg) →
    splitNL ((L.map (fun s => s ++ ['\n'])).flatten) = L ++ [[]] := by
  intro L
  induction L with
  | nil => simp [splitNL]
  | cons seg L ih =>
    intro h
    have hseg : '\n' ∉ seg := h seg (List.mem_cons_self seg L)
    have hL : ∀ s ∈ L, '\n' ∉ s := fun s hs => h s (List.mem_cons_of_mem seg hs)
    simp only [List.map_cons, List.flatten_cons, List.append_assoc,
      List.singleton_append, List.cons_append, List.nil_append,
      splitNL_newline_free seg _ hseg, ih hL]

theorem stripCR_of_no_cr {l : List Char} (h : l.getLast? ≠ some '\x0d') :
    stripCR l = l := by
  simp [stripCR, h]

theorem rustLines_flatten (L : List (List Char)) (h : ∀ seg ∈ L, '\n' ∉ seg) :
    rustLines ((L.map (fun s => s ++ ['\n'])).flatten) = L.map stripCR := by
  simp only [rustLines, splitNL_flatten L h]
  rw [show L ++ [([] : List Char)] = L ++ [[]] from rfl]
  rw [List.dropLast_concat, List.getLast?_concat]
  simp

theorem rustLines_save (l : ItemList) (old : List Char)
    (h : ∀ s ∈ l.items, '\n' ∉ s.data) :
    rustLines (l.save old) = (l.items.map String.data).map stripCR := by
  rw [save_eq_flatten]
  have hm : l.items.map (fun s => s.data ++ ['\n']) =
      (l.items.map String.data).map (fun s => s ++ ['\n']) := by
    rw [List.map_map]
    rfl
  rw [hm]
  apply rustLines_flatten
  intro seg hseg
  rcases List.mem_map.mp hseg with ⟨s, hs, rfl⟩
  exact h s hs

theorem btFromList_append_of_lt : ∀ (acc : List String) (x : String),
    (∀ y ∈ acc, strLt y x) → btInsert x acc = acc ++ [x] := by
  intro acc
  induction acc with
  | nil => intro x _; rfl
  | cons y ys ih =>
    intro x h
    have hyx : strLtB y.data x.data = true := h y (List.mem_cons_self y ys)
    have hxy : strLtB x.data y.data = false := strLtB_asymm _ _ hyx
    simp only [btInsert, hxy, Bool.false_eq_true, if_false, hyx, if_true,
      List.cons_append]
    rw [ih x (fun z hz => h z (List.mem_cons_of_mem y hz))]

theorem btFromList_of_sorted : ∀ (l acc : List String),
    List.Sorted strLt (acc ++ l) →
    l.foldl (fun acc s => btInsert s acc) acc = acc ++ l := by
  intro l
  induction l with
  | nil => intro acc _; simp
  | cons x xs ih =>
    intro acc hs
    have hlt : ∀ y ∈ acc, strLt y x := by
      intro y hy
      have := (List.pairwise_append.mp hs).2.2 y hy x (List.mem_cons_self x xs)
      exact this
    simp only [List.foldl_cons, btFromList_append_of_lt acc x hlt]
    have hs2 : List.Sorted strLt ((acc ++ [x]) ++ xs) := by
      simpa [List.append_assoc] using hs
    rw [ih (acc ++ [x]) hs2]
    simp

theorem btInsert_idem (x : String) : ∀ l : List String,
    btInsert x (btInsert x l) = btInsert x l := by
  intro l
  induction l with
  | nil => simp [btInsert, strLtB_irrefl]
  | cons y ys ih =>
    cases h1 : strLtB x.data y.data with
    | true => simp [btInsert, h1, strLtB_irrefl]
    | false =>
      cases h2 : strLtB y.data x.data with
      | true => simp [btInsert, h1, h2, ih]
      | false => simp [btInsert, h1, h2]

theorem map_stripCR_id (l : ItemList)
    (h : ∀ s ∈ l.items, s.data.getLast? ≠ some '\x0d') :
    (l.items.map String.data).map stripCR = l.items.map String.data := by
  have hstrip : ∀ d ∈ l.items.map String.data, stripCR d = id d := by
    intro d hd
    rcases List.mem_map.mp hd with ⟨s, hsmem, rfl⟩
    exact stripCR_of_no_cr (h s hsmem)
  rw [List.map_congr_left hstrip, List.map_id]

/-- Claim C5: `ItemList::remove` returns `true` exactly when the item was in
the set immediately before the call, and afterwards the set does not contain
the item.  The hypothesis states the `BTreeSet` representation invariant
(strictly sorted, hence duplicate-free). -/
theorem remove_iff_mem (l : ItemList) (item : String)
    (hs : List.Sorted strLt l.items) :
    ((l.remove item).1 = true ↔ item ∈ l.items) ∧
    item ∉ ((l.remove item).2).items := by
  constructor
  · simp [ItemList.remove]
  · have hnd : l.items.Nodup := sorted_nodup hs
    simpa [ItemList.remove] using hnd.not_mem_erase

/-- Witness for `remove_iff_mem` at the spec's own example: removing `"dog"`
from `{"cat","dog"}` reports `true` and leaves a set without `"dog"`. -/
theorem remove_iff_mem_witness :
    ((ItemList.mk ["cat", "dog"]).remove "dog").1 = true ∧
    "dog" ∉ (((ItemList.mk ["cat", "dog"]).remove "dog").2).items :=
  ⟨(remove_iff_mem ⟨["cat", "dog"]⟩ "dog" (by decide)).1.mpr (by decide),
   (remove_iff_mem ⟨["cat", "dog"]⟩ "dog" (by decide)).2⟩

/-- Claim C6: adding the same item twice leaves the set equal to adding it
once, with exactly one occurrence of the item, and the no-duplicate
invariant (with the sorted representation invariant) is preserved by `add`
and `remove`. -/
theorem add_idempotent_and_set_invariant (l : ItemList) (item : String)
    (hs : List.Sorted strLt l.items) :
    ((l.add item).add item).items = (l.add item).items ∧
    List.count item (((l.add item).add item).items) = 1 ∧
    List.Sorted strLt ((l.add item).items) ∧ ((l.add item).items).Nodup ∧
    List.Sorted strLt (((l.remove item).2).items) ∧
    (((l.remove item).2).items).Nodup := by
  have hidem : ((l.add item).add item).items = (l.add item).items :=
    btInsert_idem item l.items
  have hsorted1 : List.Sorted strLt ((l.add item).items) := btInsert_sorted hs
  have hnd1 : ((l.add item).items).Nodup := sorted_nodup hsorted1
  have hmem : item ∈ (l.add item).items := (btInsert_mem _).mpr (Or.inl rfl)
  have hsorted2 : List.Sorted strLt (((l.remove item).2).items) :=
    List.Pairwise.sublist (List.erase_sublist item l.items) hs
  refine ⟨hidem, ?_, hsorted1, hnd1, hsorted2, sorted_nodup hsorted2⟩
  rw [hidem]
  exact List.count_eq_one_of_mem hnd1 hmem

/-- Witness for `add_idempotent_and_set_invariant` at the spec's example
set `{"cat","dog"}` with the item `"fish"`. -/
theorem add_idempotent_and_set_invariant_witness :
    (((ItemList.mk ["cat", "dog"]).add "fish").add "fish").items =
      ((ItemList.mk ["cat", "dog"]).add "fish").items ∧
    List.count "fish" ((((ItemList.mk ["cat", "dog"]).add "fish").add "fish").items) = 1 :=
  ⟨(add_idempotent_and_set_invariant ⟨["cat", "dog"]⟩ "fish" (by decide)).1,
   (add_idempotent_and_set_invariant ⟨["cat", "dog"]⟩ "fish" (by decide)).2.1⟩

/-- Claim C4, counterexample: the round trip is not the identity for every
set of distinct non-empty single-line strings.  The string consisting of a
single carriage return contains no newline (it is single-line) and is
non-empty, yet `save` writes it as `"\x0d\n"` and the loader strips the
carriage return, so the loaded set is `{""}`, not `{"\x0d"}`. -/
theorem save_load_roundtrip_cr_counterexample :
    ("\x0d" : String) ≠ "" ∧ '\n' ∉ ("\x0d" : String).data ∧
    List.Sorted strLt ["\x0d"] ∧
    loadContent ((ItemList.mk ["\x0d"]).save []) = [""] ∧
    loadContent ((ItemList.mk ["\x0d"]).save []) ≠ ["\x0d"] ∧
    "\x0d" ∉ loadContent ((ItemList.mk ["\x0d"]).save []) := by
  decide

/-- Claim C4 (amended): for any set of distinct non-empty single-line
strings none of which ends in a carriage return, `save` followed by a load
of the written content reproduces exactly the same set of items. -/
theorem save_load_roundtrip (l : ItemList) (old : List Char)
    (hs : List.Sorted strLt l.items)
    (h : ∀ s ∈ l.items, s ≠ "" ∧ '\n' ∉ s.data ∧ s.data.getLast? ≠ some '\x0d') :
    loadContent (l.save old) = l.items := by
  unfold loadContent
  rw [rustLines_save l old (fun s hsm => (h s hsm).2.1)]
  rw [map_stripCR_id l (fun s hsm => (h s hsm).2.2)]
  rw [List.map_map]
  rw [show l.items.map (String.mk ∘ String.data) = l.items.map id from rfl,
    List.map_id]
  unfold btFromList
  rw [btFromList_of_sorted l.items [] (by simpa using hs)]
  simp

/-- Witness for `save_load_roundtrip` on the concrete set `{"ab","c"}`. -/
theorem save_load_roundtrip_witness :
    loadContent ((ItemList.mk ["ab", "c"]).save []) = ["ab", "c"] :=
  save_load_roundtrip ⟨["ab", "c"]⟩ [] (by decide) (by decide)

/-- Claim C7: `ItemList::save` ignores the previous file content
(truncation), writes exactly the items of the set, each followed by one
newline, in the set's (lexicographically sorted, duplicate-free) iteration
order — so splitting the written content back into lines yields exactly the
item sequence.  The single-line hypotheses make "one per line" well formed. -/
theorem save_writes_sorted_lines (l : ItemList) (old : List Char)
    (hs : List.Sorted strLt l.items)
    (h : ∀ s ∈ l.items, '\n' ∉ s.data ∧ s.data.getLast? ≠ some '\x0d') :
    l.save old = (l.items.map (fun s => s.data ++ ['\n'])).flatten ∧
    rustLines (l.save old) = l.items.map String.data ∧
    List.Sorted strLt l.items ∧ l.items.Nodup ∧
    ∀ old2, l.save old2 = l.save old := by
  refine ⟨save_eq_flatten l old, ?_, hs, sorted_nodup hs, fun old2 => rfl⟩
  rw [rustLines_save l old (fun s hsm => (h s hsm).1)]
  exact map_stripCR_id l (fun s hsm => (h s hsm).2)

/-- Witness for `save_writes_sorted_lines` on the set `{"a","b"}`. -/
theorem save_writes_sorted_lines_witness :
    (ItemList.mk ["a", "b"]).save [] =
      ((["a", "b"] : List String).map (fun s => s.data ++ ['\n'])).flatten :=
  (save_writes_sorted_lines ⟨["a", "b"]⟩ [] (by decide) (by decide)).1

/-- Claim C8: the `list` subcommand renders exactly the items of the set, in
lexicographically sorted order, with 1-based indices rendered by
`to_string`; in particular the set built by adding `"b"`, `"a"`, `"c"`
renders as rows `a`, `b`, `c` with indices `1`, `2`, `3`. -/
theorem list_renders_sorted_indexed (l : ItemList)
    (hs : List.Sorted strLt l.items) :
    (listCommand l).map Prod.snd = l.items ∧
    List.Sorted strLt ((listCommand l).map Prod.snd) ∧
    (listCommand l).map Prod.fst =
      (List.range l.items.length).map (fun i => toString (i + 1)) ∧
    listCommand ((((ItemList.mk []).add "b").add "a").add "c") =
      [("1", "a"), ("2", "b"), ("3", "c")] := by
  have hsnd : (listCommand l).map Prod.snd = l.items := by
    unfold listCommand
    rw [List.map_map]
    exact List.enum_map_snd l.items
  refine ⟨hsnd, by rw [hsnd]; exact hs, ?_, by decide⟩
  unfold listCommand
  rw [List.map_map]
  rw [show (Prod.fst ∘ fun p : Nat × String => (toString (p.1 + 1), p.2)) =
        ((fun i => toString (i + 1)) ∘ Prod.fst) from rfl]
  rw [← List.map_map, List.enum_map_fst]

/-- Witness for `list_renders_sorted_indexed` on the sorted set
`{"a","b","c"}`. -/
theorem list_renders_sorted_indexed_witness :
    (listCommand ⟨["a", "b", "c"]⟩).map Prod.snd = ["a", "b", "c"] :=
  (list_renders_sorted_indexed ⟨["a", "b", "c"]⟩ (by decide)).1

/-- Claim C10: `ItemList::new` returns an error exactly when the data
directory cannot be created; any `File::open` failure (missing file,
permission denied, ...) yields an empty set rather than an error. -/
theorem new_fails_only_when_dir_fails :
    (∀ (d : Bool) (r : Option (List Char)), (ItemList.new d r).isSome = d) ∧
    (∀ r, ItemList.new false r = none) ∧
    ItemList.new true none = some ⟨[]⟩ := by
  refine ⟨?_, ?_, rfl⟩
  · intro d r
    cases d <;> simp [ItemList.new]
  · intro r
    simp [ItemList.new]

/-- Claim C1: contrary to the specification, the `roll` command never
removes anything from the in-memory set — whenever it completes without
panicking, the set passed to `list.save()` is exactly the loaded set (the
kill loop only edits the borrowed preview vector). -/
theorem roll_saves_unchanged_set (l : ItemList) (rng : RollRng)
    (p : String × List String) (h : rollCommand l rng = some p) :
    p.2 = l.items := by
  unfold rollCommand at h
  split at h
  · cases h
  · split at h
    · cases h
    · cases h
      rfl

/-- Witness for `roll_saves_unchanged_set`: on the one-item list `["a"]`
with a random stream that never kills, the roll completes, prints `"a"`,
and still saves the full set `["a"]` containing the drawn item. -/
theorem roll_saves_unchanged_set_witness :
    rollCommand ⟨["a"]⟩ ⟨300, fun _ => false, fun xs => xs⟩ = some ("a", ["a"]) ∧
    (("a", ["a"]) : String × List String).2 = (ItemList.mk ["a"]).items :=
  ⟨by decide,
   roll_saves_unchanged_set ⟨["a"]⟩ ⟨300, fun _ => false, fun xs => xs⟩
     ("a", ["a"]) (by decide)⟩

/-- Claim C2: contrary to the specification, rolling an empty list does not
print a message and exit cleanly — the first animation tick evaluates
`choices.len() - 1` on an empty vector and the program panics, for every
valid random outcome (`gen_range(300..500)` yields at least one tick and
`shuffle` permutes the empty vector to itself). -/
theorem roll_empty_list_panics (l : ItemList) (rng : RollRng)
    (h0 : l.items = []) (h1 : 300 ≤ rng.count) (h2 : rng.count < 500)
    (h3 : ∀ xs, List.Perm (rng.shuffle xs) xs) :
    rollCommand l rng = none := by
  have hsh : rng.shuffle [] = [] := (h3 []).eq_nil
  obtain ⟨t, ht⟩ : ∃ t, rng.count = t + 1 := ⟨rng.count - 1, by omega⟩
  unfold rollCommand
  rw [h0, hsh, ht]
  rfl

/-- Witness for `roll_empty_list_panics` with a concrete random outcome. -/
theorem roll_empty_list_panics_witness :
    rollCommand ⟨[]⟩ ⟨300, fun _ => false, fun xs => xs⟩ = none :=
  roll_empty_list_panics ⟨[]⟩ ⟨300, fun _ => false, fun xs => xs⟩ rfl
    (by decide) (by decide) (fun xs => List.Perm.refl xs)

/-- Claim C3: there exist a non-empty list and a valid sequence of random
outcomes under which the roll command panics: a kill at the first tick
empties the one-element preview vector, and the next tick's
`choices.len() - 1` computation underflows. -/
theorem roll_kill_can_empty_then_panic :
    ∃ (l : ItemList) (rng : RollRng),
      l.items ≠ [] ∧ 300 ≤ rng.count ∧ rng.count < 500 ∧
      (∀ xs, List.Perm (rng.shuffle xs) xs) ∧
      rollCommand l rng = none :=
  ⟨⟨["a"]⟩, ⟨300, fun k => decide (k = 0), fun xs => xs⟩,
   by decide, by decide, by decide, fun xs => List.Perm.refl xs, by decide⟩

/-- Claim C9: contrary to the specification, when spawning the editor fails
the `edit` branch does complete normally (returns `Ok(())`, exit code 0, no
save), but it prints nothing: the error message built by `format!` is
discarded, so the failure is not reported to the user. -/
theorem edit_spawn_failure_silently_succeeds :
    (editCommand SpawnResult.failed).exitOk = true ∧
    (editCommand SpawnResult.failed).saved = false ∧
    (editCommand SpawnResult.failed).printed = [] ∧
    editErrorMessage ∉ (editCommand SpawnResult.failed).printed ∧
    editErrorMessage ≠ "" := by
  refine ⟨rfl, rfl, rfl, ?_, by decide⟩
  simp [editCommand]
